import Mathlib

/-!
Verification of the caption dedup/segmentation core of
`src/lambda/function/yt_transcript2.py` (class `VideoExtractor` plus
`convert_caption_data`), as a shallow embedding.

Modelling conventions:
* Python strings are Lean `String`s; `str.strip`, `str.split(sep)` (with an
  explicit one-character separator), `"\n".join`, the substring test `in`
  and `re.sub(' +', ' ', _)` are embedded by the executable helpers below,
  which follow Python's semantics for those calls.
* Timestamps: in the source a cue's `start`/`end` are WebVTT timestamp
  strings and every comparison first converts them to seconds
  (`_ts_to_secs`).  WebVTT timestamps carry whole-millisecond precision and
  the round-trip through `_seconds_to_timestamp` is exact on such values
  (proved below), so a cue's times are modelled directly as exact rational
  numbers of seconds.  Float literals (`0.15`, `0.001`) become the exact
  rationals `15/100`, `1/1000`.
* Fallible code (indexing a too-short list, `float(...)` on a non-numeric
  part, attribute access on `None`) is modelled with `Option`/`Except`.
-/

namespace YT

/-- Python's default whitespace set for `str.strip` (ASCII part). -/
def pySpace (c : Char) : Bool :=
  c == ' ' || c == '\t' || c == '\n' || c == '\r' || c == '\x0b' || c == '\x0c'

/-- `str.strip()` on the underlying character list. -/
def stripChars (l : List Char) : List Char :=
  ((l.dropWhile pySpace).reverse.dropWhile pySpace).reverse

/-- Python `s.strip()`. -/
def pyStrip (s : String) : String := ⟨stripChars s.data⟩

/-- Worker for `str.split(sep)` with a one-character separator:
`acc` holds the current chunk reversed. -/
def splitCharAux (sep : Char) : List Char → List Char → List (List Char)
  | [], acc => [acc.reverse]
  | c :: cs, acc =>
    if c = sep then acc.reverse :: splitCharAux sep cs []
    else splitCharAux sep cs (c :: acc)

/-- Python `s.split(sep)` for a one-character separator `sep`
(`"".split(sep) = [""]`, empty chunks kept). -/
def pySplit (sep : Char) (s : String) : List String :=
  (splitCharAux sep s.data []).map (fun l => (⟨l⟩ : String))

/-- Join character lists with a one-character separator. -/
def joinCL (sep : Char) : List (List Char) → List Char
  | [] => []
  | [x] => x
  | x :: y :: xs => x ++ sep :: joinCL sep (y :: xs)

/-- Python `sep.join(ss)` for a one-character separator. -/
def joinSep (sep : Char) (ss : List String) : String :=
  ⟨joinCL sep (ss.map String.data)⟩

/-- Substring test on character lists. -/
def containsCL (a : List Char) : List Char → Bool
  | [] => a.isEmpty
  | b :: bs => a.isPrefixOf (b :: bs) || containsCL a bs

/-- Python's substring test `a in b`. -/
def pyIn (a b : String) : Bool := containsCL a.data b.data

/-- `re.sub(' +', ' ', _)`: collapse runs of spaces to one space. -/
def squeezeSpaces : List Char → List Char
  | [] => []
  | [c] => [c]
  | c :: d :: rest =>
    if c = ' ' ∧ d = ' ' then squeezeSpaces (d :: rest)
    else c :: squeezeSpaces (d :: rest)

/-- `cap.text.replace('\n', ' ')`. -/
def replaceNl (s : String) : String :=
  ⟨s.data.map (fun c => if c = '\n' then ' ' else c)⟩

/-- The segment-text cleanup of `parse_captions`:
`re.sub(' +', ' ', cap.text.replace('\n', ' ').strip())`. -/
def collapseText (s : String) : String :=
  ⟨squeezeSpaces (pyStrip (replaceNl s)).data⟩

/-! ### Numeric helpers for Python `int`, `//`, `%`, `round` on floats -/

/-- Python `int(x)`: truncation toward zero. -/
def pyInt (q : ℚ) : ℤ := if 0 ≤ q then ⌊q⌋ else ⌈q⌉

/-- Python `x // y` on floats (floor division, result still a float). -/
def pyFloorDiv (a b : ℚ) : ℚ := (⌊a / b⌋ : ℤ)

/-- Python `x % y` on floats: `a - b * (a // b)`. -/
def pyMod (a b : ℚ) : ℚ := a - b * (⌊a / b⌋ : ℤ)

/-- Round to nearest integer, ties to even: the rounding `%.3f` performs
(on the exact value; the source rounds the binary float the same way). -/
def roundHalfEven (q : ℚ) : ℤ :=
  let n := ⌊q⌋
  if q - n < 1/2 then n
  else if 1/2 < q - n then n + 1
  else if 2 ∣ n then n else n + 1

/-! ### Decimal digit rendering and parsing -/

/-- The character of a decimal digit. -/
def digitChar : ℕ → Char
  | 0 => '0' | 1 => '1' | 2 => '2' | 3 => '3' | 4 => '4'
  | 5 => '5' | 6 => '6' | 7 => '7' | 8 => '8' | _ => '9'

/-- Decimal digits of `n`, most significant first (fuel-based so the kernel
can evaluate it; `natDigits` supplies sufficient fuel). -/
def natDigitsAux : ℕ → ℕ → List Char
  | 0, _ => []
  | fuel + 1, n =>
    if n < 10 then [digitChar n]
    else natDigitsAux fuel (n / 10) ++ [digitChar (n % 10)]

/-- Decimal rendering of a natural number, as Python's `str`/`d` format. -/
def natDigits (n : ℕ) : String := ⟨natDigitsAux (n + 1) n⟩

/-- Python format `f"{n:02d}"` for a non-negative value. -/
def pad2 (n : ℕ) : String := if n < 10 then "0" ++ natDigits n else natDigits n

/-- Zero-pad to three digits (the fractional part of `%06.3f`). -/
def pad3 (n : ℕ) : String :=
  if n < 10 then "00" ++ natDigits n
  else if n < 100 then "0" ++ natDigits n
  else natDigits n

/-- Python format `f"{i:02d}"` for an `int` (a negative value is at least
two characters wide already, so it is never padded). -/
def fmtInt02 (i : ℤ) : String :=
  if i < 0 then "-" ++ natDigits i.natAbs else pad2 i.toNat

/-- Python format `f"{x:06.3f}"`: round to three decimals, render with
exactly three fractional digits, zero-pad to overall width six.  The
unpadded rendering is at least five characters, so at most one `'0'` is
prepended. -/
def fmt63 (x : ℚ) : String :=
  let msI := roundHalfEven (x * 1000)
  let sign := if msI < 0 then "-" else ""
  let a := msI.natAbs
  let s := sign ++ natDigits (a / 1000) ++ "." ++ pad3 (a % 1000)
  if s.length < 6 then "0" ++ s else s

/-- Is `c` a decimal digit character? -/
def isDigitCh (c : Char) : Bool := 48 ≤ c.toNat && c.toNat ≤ 57

/-- All characters are decimal digits. -/
def allDigits (l : List Char) : Bool := l.all isDigitCh

/-- Value of a digit string, most significant first. -/
def digitsToNat (l : List Char) : ℕ :=
  l.foldl (fun acc c => 10 * acc + (c.toNat - 48)) 0

/-- Python `float(s)` on the plain decimal strings this program produces
and consumes: optional sign, then digits with at most one `'.'` and at
least one digit overall.  Exponents and specials are not modelled (the
formatter never emits them); any other shape is a `ValueError`, i.e.
`none`. -/
def pyFloat (s : String) : Option ℚ :=
  let l := s.data
  let sign : ℚ := if l.head? = some '-' then -1 else 1
  let l2 := if l.head? = some '-' ∨ l.head? = some '+' then l.tail else l
  match splitCharAux '.' l2 [] with
  | [ip] =>
    if ip ≠ [] ∧ allDigits ip then some (sign * digitsToNat ip) else none
  | [ip, fp] =>
    if (ip ≠ [] ∨ fp ≠ []) ∧ allDigits ip ∧ allDigits fp then
      some (sign * ((digitsToNat ip : ℚ) + (digitsToNat fp : ℚ) / 10 ^ fp.length))
    else none
  | _ => none

/-! ### Timestamp utilities (`_timestamp_to_seconds`, `_seconds_to_timestamp`) -/

/-- `VideoExtractor._timestamp_to_seconds`: split on `':'`, convert the
first three parts with `float`, return `hours*3600 + minutes*60 + seconds`.
Fewer than three parts is an `IndexError`, a non-numeric part a
`ValueError`; both are modelled as `none`. -/
def timestamp_to_seconds (timestamp : String) : Option ℚ :=
  let time_parts := pySplit ':' timestamp
  if time_parts.length < 3 then none
  else
    match pyFloat ((time_parts.get? 0).getD ""),
          pyFloat ((time_parts.get? 1).getD ""),
          pyFloat ((time_parts.get? 2).getD "") with
    | some hours, some minutes, some seconds =>
      some (hours * 3600 + minutes * 60 + seconds)
    | _, _, _ => none

/-- `VideoExtractor._seconds_to_timestamp`:
`hours = int(total_seconds // 3600)`, `remaining = total_seconds % 3600`,
`minutes = int(remaining // 60)`, `seconds = remaining % 60`, rendered as
`f"{hours:02d}:{minutes:02d}:{seconds:06.3f}"`. -/
def seconds_to_timestamp (total_seconds : ℚ) : String :=
  let hours := pyInt (pyFloorDiv total_seconds 3600)
  let remaining := pyMod total_seconds 3600
  let minutes := pyInt (pyFloorDiv remaining 60)
  let seconds := pyMod remaining 60
  fmtInt02 hours ++ ":" ++ fmtInt02 minutes ++ ":" ++ fmt63 seconds

/-! ### Cues and the deduplication merger (`dedupe_yt_captions`) -/

/-- One caption cue.  In the source `start`/`end` are WebVTT timestamp
strings; they are modelled as exact rational seconds (see the header).
`stop` models the Python attribute `end` (a Lean keyword). -/
structure Cue where
  start : ℚ
  stop : ℚ
  text : String
deriving DecidableEq, Repr

/-- The branch logic of one loop iteration of `dedupe_yt_captions` (lines
212–246), before overlap/order correction: strip the text, skip empty
cues, the short-duplicate rule (line 217: note the source compares
`start - end < 0.15`, not `end - start`), the line-continuation rules and
the short-annotation merge.
`.inl p` means the incoming cue was folded away (a `continue` in the
source) and the carried `previous_subtitle` is now `p`;
`.inr (c, singleword)` means control falls through to the
overlap/order-correction and emission steps with the possibly rewritten
cue `c`. -/
def dedupeBranch (pending sub : Cue) : Cue ⊕ (Cue × Bool) :=
  let t := pyStrip sub.text
  if t.length = 0 then .inl pending
  else
    let sub1 : Cue := { sub with text := t }
    if sub1.start - sub1.stop < 15/100 ∧ pyIn sub1.text pending.text then
      .inl { pending with stop := sub1.stop }
    else
      let currentLines := pySplit '\n' sub1.text
      let lastLines := pySplit '\n' pending.text
      if currentLines.headD "" = lastLines.getLastD "" then
        if lastLines.length = 1 then
          if (pySplit ' ' (lastLines.headD "")).length < 2 ∧ 2 < (lastLines.headD "").length then
            .inr ({ sub1 with text := currentLines.headD "" ++ " " ++ joinSep '\n' currentLines.tail }, true)
          else
            .inr ({ sub1 with text := joinSep '\n' currentLines.tail }, false)
        else
          .inr ({ sub1 with text := joinSep '\n' currentLines.tail }, false)
      else
        if (pySplit ' ' sub1.text).length ≤ 2 then
          let title_text :=
            if sub1.text.data.headD ' ' ≠ ' ' then " " ++ sub1.text else sub1.text
          .inl { pending with stop := sub1.stop, text := pending.text ++ title_text }
        else
          .inr (sub1, false)

/-- The scan of `dedupe_yt_captions` once `previous_subtitle` is seeded:
process each remaining cue, apply overlap correction (lines 249–251, using
the pre-swap start), order correction (lines 252–253), emit the carried
cue unless `singleword`, and finally emit the last carried cue. -/
def dedupeGo (pending : Cue) : List Cue → List Cue
  | [] => [pending]
  | sub :: rest =>
    match dedupeBranch pending sub with
    | .inl newPending => dedupeGo newPending rest
    | .inr (sub2, singleword) =>
      let pending2 :=
        if sub2.start ≤ pending.stop then
          { pending with stop := max (sub2.start - 1/1000) 0 }
        else pending
      let sub3 :=
        if sub2.start ≥ sub2.stop then
          { sub2 with start := sub2.stop, stop := sub2.start }
        else sub2
      if singleword then dedupeGo sub3 rest
      else pending2 :: dedupeGo sub3 rest

/-- `VideoExtractor.dedupe_yt_captions`: the first cue seeds
`previous_subtitle` (unstripped, unchecked) and the final
`yield previous_subtitle` runs even when the input was empty, in which
case it yields Python `None` — hence the `Option` in the output. -/
def dedupe_yt_captions (subs : List Cue) : List (Option Cue) :=
  match subs with
  | [] => [none]
  | first :: rest => (dedupeGo first rest).map some

/-- The merger's output as a cue list (defined for any input; on a
non-empty input it is exactly the yielded cues). -/
def mergedCues (subs : List Cue) : List Cue :=
  (dedupe_yt_captions subs).filterMap id

/-! ### Segments (`parse_captions`) -/

/-- One output segment of `parse_captions`.  The source also stores the
`start`/`end` timestamp strings; they are the rendering of `start_sec` /
`end_sec` and carry no further information, so they are omitted here. -/
structure Segment where
  start_sec : ℚ
  end_sec : ℚ
  separator : String
  text : String
deriving DecidableEq, Repr

/-- The segment-building loop of `parse_captions` (lines 305–336).
`prevEnd` is `segments[-1]['end_sec']` of the previous iteration (`none`
on the first).  A `none` element (the `None` yielded on empty input)
makes `cap.text` raise `AttributeError`, modelled as `none`. -/
def buildSegmentsGo (prevEnd : Option ℚ) : List (Option Cue) → Option (List Segment)
  | [] => some []
  | none :: _ => none
  | some cap :: rest =>
    let sep :=
      match prevEnd with
      | none => ""
      | some pe => if cap.start - pe > 3 then "\n\n"
                   else if cap.start - pe > 1 then "\n"
                   else " "
    match buildSegmentsGo (some cap.stop) rest with
    | none => none
    | some segs =>
      some ({ start_sec := cap.start, end_sec := cap.stop,
              separator := sep, text := collapseText cap.text } :: segs)

/-- `VideoExtractor.parse_captions` with the external WebVTT markup parse
factored out: it takes the raw cue list `webvtt.from_string` would
produce.  `ext != 'vtt'` raises `ValueError` before anything else. -/
def parse_captions (ext : String) (cues : List Cue) : Except String (List Segment) :=
  if ext ≠ "vtt" then .error ("Unsupported caption format: " ++ ext)
  else
    match buildSegmentsGo none (dedupe_yt_captions cues) with
    | none => .error "AttributeError"
    | some segs => .ok segs

/-! ### Caption track selector (`get_captions_by_priority`) -/

/-- One entry of a caption track list: the dict keys the selector reads.
`name = none` models an absent `'name'` key. -/
structure CaptionTrack where
  name : Option String
  protocol : Option String
  ext : Option String
deriving DecidableEq, Repr

/-- The two caption catalogs of a video's info dict, as ordered mappings
(Python dicts iterate in insertion order).  An absent key and an empty
dict are both falsy in the source, so both are modelled as `[]`. -/
structure VideoInfo where
  subtitles : List (String × List CaptionTrack)
  automatic_captions : List (String × List CaptionTrack)
deriving DecidableEq, Repr

def subtitle_priorities : List String := ["en-US", "en-CA", "en"]
def auto_caption_priorities : List String := ["en-orig", "en-US", "en-CA", "en"]
def format_priorities : List String := ["vtt", "srt", "ttml"]

/-- Manual-subtitle selection (lines 84–96): the priority loop, and its
`for`/`else` fallback to the first `en-`-prefixed key. -/
def findManual (subs : List (String × List CaptionTrack)) : Option (List CaptionTrack) :=
  match subtitle_priorities.find? (fun lang => (List.lookup lang subs).isSome) with
  | some lang => List.lookup lang subs
  | none =>
    match subs.find? (fun p => p.1.startsWith "en-") with
    | some p => some p.2
    | none => none

/-- Automatic-caption selection (lines 100–104). -/
def findAuto (autos : List (String × List CaptionTrack)) : Option (List CaptionTrack) :=
  match auto_caption_priorities.find? (fun lang => (List.lookup lang autos).isSome) with
  | some lang => List.lookup lang autos
  | none => none

/-- Python truthiness of the `caption_track` variable: `None` and `[]` are
both falsy. -/
def truthyTrack : Option (List CaptionTrack) → Bool
  | none => false
  | some l => !l.isEmpty

/-- The value of `caption_track` after the two language-selection blocks
(lines 81–104): manual subtitles if their dict is truthy, then automatic
captions when the result so far is falsy and their dict is truthy (the
variable keeps its old value when the automatic loop matches nothing). -/
def caption_track (info : VideoInfo) : Option (List CaptionTrack) :=
  let ct1 := if info.subtitles.isEmpty then none else findManual info.subtitles
  if truthyTrack ct1 then ct1
  else if info.automatic_captions.isEmpty then ct1
  else
    match findAuto info.automatic_captions with
    | some l => some l
    | none => ct1

/-- The usability filter of the format loop (line 112): skip a track with
no `'name'` key or with `protocol == 'm3u8_native'`. -/
def usableTrack (t : CaptionTrack) : Bool :=
  t.name.isSome && t.protocol ≠ some "m3u8_native"

/-- The format-priority loop (lines 110–115): first usable track whose
`ext` is the format, formats tried in priority order. -/
def selectFormat (tracks : List CaptionTrack) : Option CaptionTrack :=
  format_priorities.findSome?
    (fun fmt => tracks.find? (fun t => usableTrack t && t.ext = some fmt))

/-- `VideoExtractor.get_captions_by_priority`: language selection, the
falsy check `if not caption_track: return None`, then the format loop;
`return None` when that loop finds nothing either. -/
def get_captions_by_priority (info : VideoInfo) : Option CaptionTrack :=
  match caption_track info with
  | none => none
  | some l => if l.isEmpty then none else selectFormat l

/-! ### Downstream projection (`convert_caption_data`) -/

/-- `str(datetime.timedelta(seconds = n))`: `H:MM:SS`, prefixed by the
day count when non-zero. -/
def timedeltaStr (n : ℤ) : String :=
  let d := Int.fdiv n 86400
  let r := (n - 86400 * d).toNat
  let core := natDigits (r / 3600) ++ ":" ++ pad2 (r % 3600 / 60) ++ ":" ++ pad2 (r % 60)
  if d = 0 then core
  else
    (if d < 0 then "-" ++ natDigits d.natAbs else natDigits d.toNat) ++
      (if d = 1 ∨ d = -1 then " day, " else " days, ") ++ core

/-- The output record of `convert_caption_data`. -/
structure ConvertedCaption where
  text : String
  offset : ℤ
  offsetText : String
  duration : ℤ
deriving DecidableEq, Repr

/-- `convert_caption_data` (lines 412–432): `offset = int(start_sec*1000)`,
`offsetText = str(timedelta(seconds=int(start_sec)))`,
`duration = int((end_sec - start_sec)*1000)`.

The model carries the value of `start_sec`/`end_sec` as an exact rational
and performs the multiplication exactly.  In the source these are IEEE-754
doubles: a whole-millisecond timestamp such as 1.001 s is stored as the
nearest double, whose exact value lies just below the true value, so
`start_sec*1000` falls below the whole-millisecond integer and the
truncating `int()` loses a millisecond.  That behaviour is reproduced
here by evaluating this model at the exact rational value of the double
the source holds (see the Claim C9 theorem below): at such an input even
the exact product is already below the integer, so no separate model of
the double multiplication's rounding is needed to exhibit the
truncation. -/
def convert_caption_data (data : Segment) : ConvertedCaption :=
  { text := data.text
    offset := pyInt (data.start_sec * 1000)
    offsetText := timedeltaStr (pyInt data.start_sec)
    duration := pyInt ((data.end_sec - data.start_sec) * 1000) }

/-! ## Helper lemmas -/

/-- `pyInt` is the identity on integers. -/
theorem pyInt_intCast (a : ℤ) : pyInt (a : ℚ) = a := by
  unfold pyInt
  split_ifs <;> simp

/-! ### Digit, padding, split and float-parsing lemmas (for Claim C7) -/

theorem str_data_append (a b : String) : (a ++ b).data = a.data ++ b.data := rfl

theorem digitChar_toNat (d : ℕ) (h : d < 10) : (digitChar d).toNat = 48 + d := by
  interval_cases d <;> rfl

theorem isDigitCh_digitChar (d : ℕ) (h : d < 10) : isDigitCh (digitChar d) = true := by
  interval_cases d <;> rfl

theorem natDigitsAux_congr (n : ℕ) : ∀ f₁ f₂, n < f₁ → n < f₂ →
    natDigitsAux f₁ n = natDigitsAux f₂ n := by
  induction n using Nat.strong_induction_on with
  | _ n ih =>
    intro f₁ f₂ h₁ h₂
    match f₁, f₂ with
    | g₁ + 1, g₂ + 1 =>
      by_cases h : n < 10
      · simp [natDigitsAux, h]
      · have hd : n / 10 < n := Nat.div_lt_self (by omega) (by omega)
        simp only [natDigitsAux, if_neg h]
        rw [ih (n / 10) hd g₁ g₂ (by omega) (by omega)]

theorem natDigits_data_lt10 (n : ℕ) (h : n < 10) : (natDigits n).data = [digitChar n] := by
  simp [natDigits, natDigitsAux, h]

theorem natDigits_data_ge10 (n : ℕ) (h : 10 ≤ n) :
    (natDigits n).data = (natDigits (n / 10)).data ++ [digitChar (n % 10)] := by
  show natDigitsAux (n + 1) n = _
  have hd : n / 10 < n := Nat.div_lt_self (by omega) (by omega)
  simp only [natDigitsAux, if_neg (by omega : ¬ n < 10)]
  rw [natDigitsAux_congr (n / 10) n (n / 10 + 1) (by omega) (by omega)]
  rfl

theorem natDigits_mem (n : ℕ) : ∀ c ∈ (natDigits n).data, ∃ d, d < 10 ∧ c = digitChar d := by
  induction n using Nat.strong_induction_on with
  | _ n ih =>
    intro c hc
    by_cases h : n < 10
    · rw [natDigits_data_lt10 n h] at hc
      simp at hc
      exact ⟨n, h, hc⟩
    · rw [natDigits_data_ge10 n (by omega)] at hc
      rcases List.mem_append.mp hc with h1 | h2
      · exact ih (n / 10) (Nat.div_lt_self (by omega) (by omega)) c h1
      · simp at h2
        exact ⟨n % 10, by omega, h2⟩

theorem natDigits_ne_nil (n : ℕ) : (natDigits n).data ≠ [] := by
  by_cases h : n < 10
  · rw [natDigits_data_lt10 n h]; simp
  · rw [natDigits_data_ge10 n (by omega)]; simp

theorem digitsToNat_append_digit (l : List Char) (c : Char) :
    digitsToNat (l ++ [c]) = 10 * digitsToNat l + (c.toNat - 48) := by
  unfold digitsToNat
  rw [List.foldl_append]
  rfl

theorem digitsToNat_natDigits (n : ℕ) : digitsToNat (natDigits n).data = n := by
  induction n using Nat.strong_induction_on with
  | _ n ih =>
    by_cases h : n < 10
    · rw [natDigits_data_lt10 n h]
      show 10 * 0 + ((digitChar n).toNat - 48) = n
      rw [digitChar_toNat n h]
      omega
    · rw [natDigits_data_ge10 n (by omega), digitsToNat_append_digit,
        ih (n / 10) (Nat.div_lt_self (by omega) (by omega)),
        digitChar_toNat (n % 10) (by omega)]
      omega

theorem digitsToNat_cons_zero (l : List Char) : digitsToNat ('0' :: l) = digitsToNat l := rfl

theorem natDigits_all_isDigit (n : ℕ) : ∀ c ∈ (natDigits n).data, isDigitCh c = true := by
  intro c hc
  obtain ⟨d, hd, rfl⟩ := natDigits_mem n c hc
  exact isDigitCh_digitChar d hd

theorem isDigit_ne (c : Char) (h : isDigitCh c = true) :
    c ≠ ':' ∧ c ≠ '.' ∧ c ≠ '-' ∧ c ≠ '+' := by
  refine ⟨?_, ?_, ?_, ?_⟩ <;> · rintro rfl; revert h; decide

theorem natDigits_length_one (n : ℕ) (h : n < 10) : (natDigits n).data.length = 1 := by
  rw [natDigits_data_lt10 n h]; rfl

theorem natDigits_length_two (n : ℕ) (h1 : 10 ≤ n) (h2 : n < 100) :
    (natDigits n).data.length = 2 := by
  rw [natDigits_data_ge10 n h1, List.length_append, natDigits_length_one (n / 10) (by omega)]
  rfl

theorem natDigits_length_three (n : ℕ) (h1 : 100 ≤ n) (h2 : n < 1000) :
    (natDigits n).data.length = 3 := by
  rw [natDigits_data_ge10 n (by omega), List.length_append,
    natDigits_length_two (n / 10) (by omega) (by omega)]
  rfl

theorem pad2_data (n : ℕ) :
    (pad2 n).data = if n < 10 then '0' :: (natDigits n).data else (natDigits n).data := by
  unfold pad2
  split_ifs with h
  · rfl
  · rfl

theorem pad2_props (n : ℕ) :
    (pad2 n).data ≠ [] ∧ (∀ c ∈ (pad2 n).data, isDigitCh c = true) ∧
      digitsToNat (pad2 n).data = n := by
  rw [pad2_data]
  split_ifs with h
  · refine ⟨by simp, ?_, ?_⟩
    · intro c hc
      rcases List.mem_cons.mp hc with rfl | hc'
      · decide
      · exact natDigits_all_isDigit n c hc'
    · rw [digitsToNat_cons_zero]
      exact digitsToNat_natDigits n
  · exact ⟨natDigits_ne_nil n, natDigits_all_isDigit n, digitsToNat_natDigits n⟩

theorem pad3_props (n : ℕ) (h : n < 1000) :
    (pad3 n).data.length = 3 ∧ (∀ c ∈ (pad3 n).data, isDigitCh c = true) ∧
      digitsToNat (pad3 n).data = n := by
  unfold pad3
  split_ifs with h1 h2
  · show ('0' :: '0' :: (natDigits n).data).length = 3 ∧ _
    refine ⟨?_, ?_, ?_⟩
    · simp [natDigits_length_one n h1]
    · intro c hc
      rcases List.mem_cons.mp hc with rfl | hc'
      · decide
      rcases List.mem_cons.mp hc' with rfl | hc''
      · decide
      · exact natDigits_all_isDigit n c hc''
    · show digitsToNat ('0' :: '0' :: (natDigits n).data) = n
      rw [digitsToNat_cons_zero, digitsToNat_cons_zero]
      exact digitsToNat_natDigits n
  · show ('0' :: (natDigits n).data).length = 3 ∧ _
    refine ⟨?_, ?_, ?_⟩
    · simp [natDigits_length_two n (by omega) h2]
    · intro c hc
      rcases List.mem_cons.mp hc with rfl | hc'
      · decide
      · exact natDigits_all_isDigit n c hc'
    · show digitsToNat ('0' :: (natDigits n).data) = n
      rw [digitsToNat_cons_zero]
      exact digitsToNat_natDigits n
  · exact ⟨natDigits_length_three n (by omega) h, natDigits_all_isDigit n,
      digitsToNat_natDigits n⟩

theorem splitCharAux_no_sep (sep : Char) :
    ∀ (l acc : List Char), (∀ c ∈ l, c ≠ sep) →
      splitCharAux sep l acc = [acc.reverse ++ l] := by
  intro l
  induction l with
  | nil => intro acc _; simp [splitCharAux]
  | cons c cs ih =>
    intro acc h
    have hc : c ≠ sep := h c (by simp)
    simp only [splitCharAux, if_neg hc]
    rw [show splitCharAux sep cs (c :: acc) = splitCharAux sep cs (c :: acc) from rfl,
      ih (c :: acc) (fun x hx => h x (by simp [hx]))]
    simp

theorem splitCharAux_sep_append (sep : Char) :
    ∀ (l acc rest : List Char), (∀ c ∈ l, c ≠ sep) →
      splitCharAux sep (l ++ sep :: rest) acc =
        (acc.reverse ++ l) :: splitCharAux sep rest [] := by
  intro l
  induction l with
  | nil =>
    intro acc rest _
    simp only [List.nil_append, splitCharAux, if_pos rfl]
    simp
  | cons c cs ih =>
    intro acc rest h
    have hc : c ≠ sep := h c (by simp)
    simp only [List.cons_append, splitCharAux, if_neg hc, List.append_eq]
    rw [ih (c :: acc) rest (fun x hx => h x (by simp [hx]))]
    simp

theorem pyFloat_digits (l : List Char) (h1 : l ≠ [])
    (h2 : ∀ c ∈ l, isDigitCh c = true) :
    pyFloat ⟨l⟩ = some ((digitsToNat l : ℚ)) := by
  have hhead : l.head? ≠ some '-' ∧ l.head? ≠ some '+' := by
    match l, h1 with
    | c :: cs, _ =>
      have := isDigit_ne c (h2 c (by simp))
      simp only [List.head?_cons]
      exact ⟨by simpa using this.2.2.1, by simpa using this.2.2.2⟩
  have hnotdot : ∀ c ∈ l, c ≠ '.' := fun c hc => (isDigit_ne c (h2 c hc)).2.1
  unfold pyFloat
  simp only [if_neg hhead.1, if_neg (fun hor : _ ∨ _ => hor.elim hhead.1 hhead.2),
    splitCharAux_no_sep '.' l [] hnotdot, List.reverse_nil, List.nil_append]
  rw [if_pos ⟨h1, by rw [allDigits, List.all_eq_true]; exact h2⟩, one_mul]

theorem pyFloat_digits_dot (ip fp : List Char) (hip1 : ip ≠ [])
    (hipd : ∀ c ∈ ip, isDigitCh c = true) (hfpd : ∀ c ∈ fp, isDigitCh c = true) :
    pyFloat ⟨ip ++ '.' :: fp⟩ =
      some ((digitsToNat ip : ℚ) + (digitsToNat fp : ℚ) / 10 ^ fp.length) := by
  have hhead : (ip ++ '.' :: fp).head? ≠ some '-' ∧ (ip ++ '.' :: fp).head? ≠ some '+' := by
    match ip, hip1 with
    | c :: cs, _ =>
      have := isDigit_ne c (hipd c (by simp))
      simp only [List.cons_append, List.head?_cons]
      exact ⟨by simpa using this.2.2.1, by simpa using this.2.2.2⟩
  have hnotdot : ∀ c ∈ ip, c ≠ '.' := fun c hc => (isDigit_ne c (hipd c hc)).2.1
  have hnotdot2 : ∀ c ∈ fp, c ≠ '.' := fun c hc => (isDigit_ne c (hfpd c hc)).2.1
  unfold pyFloat
  simp only [if_neg hhead.1, if_neg (fun hor : _ ∨ _ => hor.elim hhead.1 hhead.2),
    splitCharAux_sep_append '.' ip [] fp hnotdot,
    splitCharAux_no_sep '.' fp [] hnotdot2, List.reverse_nil, List.nil_append]
  rw [if_pos ⟨Or.inl hip1,
    by rw [allDigits, List.all_eq_true]; exact hipd,
    by rw [allDigits, List.all_eq_true]; exact hfpd⟩, one_mul]

theorem roundHalfEven_natCast (n : ℕ) : roundHalfEven ((n : ℚ)) = (n : ℤ) := by
  simp only [roundHalfEven, Int.floor_natCast]
  rw [if_pos (by push_cast; norm_num)]

theorem fmtInt02_natCast (n : ℕ) : fmtInt02 ((n : ℤ)) = pad2 n := by
  unfold fmtInt02
  rw [if_neg (by omega), Int.toNat_natCast]

theorem fmt63_spec (msec : ℕ) (h : msec < 60000) :
    (fmt63 ((msec : ℚ) / 1000)).data =
      (pad2 (msec / 1000)).data ++ '.' :: (pad3 (msec % 1000)).data := by
  have hx : ((msec : ℚ) / 1000) * 1000 = (msec : ℚ) := by
    field_simp
  unfold fmt63
  simp only [hx, roundHalfEven_natCast]
  rw [if_neg (by omega : ¬ ((msec : ℤ)) < 0), Int.natAbs_cast]
  have hwlt : msec / 1000 < 60 := by omega
  by_cases hw : msec / 1000 < 10
  · have hlen : ("" ++ natDigits (msec / 1000) ++ "." ++ pad3 (msec % 1000)).length < 6 := by
      show (("" ++ natDigits (msec / 1000) ++ "." ++ pad3 (msec % 1000)).data).length < 6
      simp only [str_data_append, List.length_append]
      rw [natDigits_length_one (msec / 1000) hw, (pad3_props (msec % 1000) (by omega)).1]
      simp
    rw [if_pos hlen]
    simp only [str_data_append, pad2_data, if_pos hw]
    simp
  · have hlen : ¬ ("" ++ natDigits (msec / 1000) ++ "." ++ pad3 (msec % 1000)).length < 6 := by
      show ¬ (("" ++ natDigits (msec / 1000) ++ "." ++ pad3 (msec % 1000)).data).length < 6
      simp only [str_data_append, List.length_append]
      rw [natDigits_length_two (msec / 1000) (by omega) (by omega),
        (pad3_props (msec % 1000) (by omega)).1]
      simp
    rw [if_neg hlen]
    simp only [str_data_append, pad2_data, if_neg hw]
    simp

/-- Claim C7: for every non-negative whole-millisecond seconds value
`ms/1000`, the formatter renders it as zero-padded `HH:MM:SS.mmm` (floor
division for hours and minutes, exactly three fractional digits) and the
parser recovers the value exactly — in particular within the claimed
`1e-3` tolerance. -/
theorem timestamp_round_trip (ms : ℕ) :
    timestamp_to_seconds (seconds_to_timestamp ((ms : ℚ) / 1000)) = some ((ms : ℚ) / 1000) := by
  set q : ℚ := (ms : ℚ) / 1000 with hqdef
  set H : ℕ := ms / 3600000 with hH
  set r : ℕ := ms % 3600000 with hr
  set M : ℕ := r / 60000 with hM
  set msec : ℕ := r % 60000 with hmsec
  have hr36 : r < 3600000 := Nat.mod_lt _ (by norm_num)
  have hmsec60 : msec < 60000 := Nat.mod_lt _ (by norm_num)
  have hms_decomp : 3600000 * H + r = ms := Nat.div_add_mod ms 3600000
  have hr_decomp : 60000 * M + msec = r := Nat.div_add_mod r 60000
  have hmsec_decomp : 1000 * (msec / 1000) + msec % 1000 = msec := Nat.div_add_mod msec 1000
  have c1 : (3600000 : ℚ) * (H : ℚ) + (r : ℚ) = (ms : ℚ) := by exact_mod_cast hms_decomp
  have c2 : (60000 : ℚ) * (M : ℚ) + (msec : ℚ) = (r : ℚ) := by exact_mod_cast hr_decomp
  have c3 : (1000 : ℚ) * ((msec / 1000 : ℕ) : ℚ) + ((msec % 1000 : ℕ) : ℚ) = (msec : ℚ) := by
    exact_mod_cast hmsec_decomp
  -- floor computations
  have hq36 : q / 3600 = (ms : ℚ) / ((3600000 : ℕ) : ℚ) := by
    rw [hqdef, div_div]; norm_num
  have hfloor1 : ⌊q / 3600⌋ = (H : ℤ) := by
    rw [hq36, Rat.floor_natCast_div_natCast]
    omega
  have hhours : pyInt (pyFloorDiv q 3600) = ((H : ℤ)) := by
    unfold pyFloorDiv
    rw [hfloor1, pyInt_intCast]
  have hrem : pyMod q 3600 = (r : ℚ) / 1000 := by
    unfold pyMod
    rw [hfloor1, hqdef]
    push_cast
    field_simp
    linarith
  have hq60 : (r : ℚ) / 1000 / 60 = (r : ℚ) / ((60000 : ℕ) : ℚ) := by
    rw [div_div]; norm_num
  have hfloor2 : ⌊(r : ℚ) / 1000 / 60⌋ = (M : ℤ) := by
    rw [hq60, Rat.floor_natCast_div_natCast]
    omega
  have hminutes : pyInt (pyFloorDiv (pyMod q 3600) 60) = ((M : ℤ)) := by
    unfold pyFloorDiv
    rw [hrem, hfloor2, pyInt_intCast]
  have hsec : pyMod (pyMod q 3600) 60 = (msec : ℚ) / 1000 := by
    rw [hrem]
    unfold pyMod
    rw [hfloor2]
    push_cast
    field_simp
    linarith
  -- the rendered string
  have hts : seconds_to_timestamp q =
      fmtInt02 ((H : ℤ)) ++ ":" ++ fmtInt02 ((M : ℤ)) ++ ":" ++ fmt63 ((msec : ℚ) / 1000) := by
    simp only [seconds_to_timestamp]
    rw [hhours, hminutes, hsec]
  have hdata : (seconds_to_timestamp q).data =
      (pad2 H).data ++ ':' ::
        ((pad2 M).data ++ ':' ::
          ((pad2 (msec / 1000)).data ++ '.' :: (pad3 (msec % 1000)).data)) := by
    rw [hts, fmtInt02_natCast, fmtInt02_natCast]
    simp only [str_data_append, fmt63_spec msec hmsec60]
    simp [List.append_assoc]
  -- splitting it back
  have hp1colon : ∀ c ∈ (pad2 H).data, c ≠ ':' :=
    fun c hc => (isDigit_ne c ((pad2_props H).2.1 c hc)).1
  have hp2colon : ∀ c ∈ (pad2 M).data, c ≠ ':' :=
    fun c hc => (isDigit_ne c ((pad2_props M).2.1 c hc)).1
  have hp3colon : ∀ c ∈ (pad2 (msec / 1000)).data ++ '.' :: (pad3 (msec % 1000)).data, c ≠ ':' := by
    intro c hc
    rcases List.mem_append.mp hc with h1 | h2
    · exact (isDigit_ne c ((pad2_props (msec / 1000)).2.1 c h1)).1
    rcases List.mem_cons.mp h2 with rfl | h3
    · decide
    · exact (isDigit_ne c ((pad3_props (msec % 1000) (by omega)).2.1 c h3)).1
  have hsplit : pySplit ':' (seconds_to_timestamp q) =
      [⟨(pad2 H).data⟩, ⟨(pad2 M).data⟩,
        ⟨(pad2 (msec / 1000)).data ++ '.' :: (pad3 (msec % 1000)).data⟩] := by
    unfold pySplit
    rw [hdata, splitCharAux_sep_append ':' _ [] _ hp1colon,
      splitCharAux_sep_append ':' _ [] _ hp2colon,
      splitCharAux_no_sep ':' _ [] hp3colon]
    simp
  -- parsing back
  simp only [timestamp_to_seconds]
  rw [hsplit]
  rw [if_neg (by simp)]
  simp only [List.get?, Option.getD_some]
  rw [pyFloat_digits _ (pad2_props H).1 (pad2_props H).2.1,
    pyFloat_digits _ (pad2_props M).1 (pad2_props M).2.1,
    pyFloat_digits_dot _ _ (pad2_props (msec / 1000)).1
      (pad2_props (msec / 1000)).2.1 (pad3_props (msec % 1000) (by omega)).2.1]
  rw [(pad2_props H).2.2, (pad2_props M).2.2, (pad2_props (msec / 1000)).2.2,
    (pad3_props (msec % 1000) (by omega)).2.2, (pad3_props (msec % 1000) (by omega)).1]
  show some _ = some q
  rw [Option.some_inj, hqdef]
  field_simp
  linarith

/-! ## Claim C1 — the short-duplicate rule's duration test

Line 217 of the source computes `start - end < 0.15`, not
`end - start < 0.15`: for any cue whose start precedes its end the
difference is negative, so the "very short" test (so described by the
source's own comment) never excludes anything and the rule fires on
arbitrarily long duplicates. -/

/-- Claim C1 (code_bug evaluation): a cue of duration 2 s (far above the
0.15 s threshold) whose text is a substring of the pending text is still
absorbed by the short-duplicate rule: the pending cue's end is extended to
3.5 and the cue is discarded, which contradicts the claimed
`end - start < 0.15` guard. -/
theorem short_duplicate_fires_on_two_second_cue :
    dedupe_yt_captions [⟨0, 1, "hello world"⟩, ⟨3/2, 7/2, "hello"⟩] =
      [some ⟨0, 7/2, "hello world"⟩] := by with_unfolding_all rfl

/-! ## Claim C2 — merger non-overlap invariant -/

/-- Claim C2 (counterexample): with the malformed second cue
`(5, 0.5, "b c d")` the overlap correction runs before the endpoint swap,
using the pre-swap start 5; after the swap the second output cue starts at
0.5, before the first cue's end 1, so adjacent outputs overlap. -/
theorem merger_overlap_after_swap_cex :
    ¬ List.Chain' (fun a b => a.stop ≤ b.start)
        (mergedCues [⟨0, 1, "a"⟩, ⟨5, 1/2, "b c d"⟩]) := by
  have h : mergedCues [⟨0, 1, "a"⟩, ⟨5, 1/2, "b c d"⟩] =
      [⟨0, 1, "a"⟩, ⟨1/2, 5, "b c d"⟩] := by with_unfolding_all rfl
  intro hc
  rw [h] at hc
  have hab := (List.chain'_cons.mp hc).1
  have h1 : (1 : ℚ) ≤ 1/2 := hab
  norm_num at h1

/-! ## Claim C3 — the two-cue concrete scenario

The spec's scenario misreads the substring test's direction: the source
checks `subtitle.text in previous_subtitle.text`, and `"hello world"` is
not a substring of `"hello"`, so the short-duplicate rule does not fire.
Instead `"hello world"` has exactly two space-separated tokens, so the
short-annotation merge appends it to the pending text. -/

/-- Claim C3 (counterexample): the merger's output on the scenario's two
cues is not the single cue `(0.0, 2.0, "hello world")`. -/
theorem concrete_scenario_cex :
    dedupe_yt_captions [⟨0, 1/10, "hello"⟩, ⟨1/20, 2, "hello world"⟩] ≠
      [some ⟨0, 2, "hello world"⟩] := by with_unfolding_all decide

/-- Claim C3 (amended): the merger's output on the scenario's two cues is
the single cue `(0.0, 2.0, "hello hello world")` — the second cue is
folded into the first by the short-annotation rule (two tokens), which
appends its text instead of replacing the pending text. -/
theorem concrete_scenario_eval :
    dedupe_yt_captions [⟨0, 1/10, "hello"⟩, ⟨1/20, 2, "hello world"⟩] =
      [some ⟨0, 2, "hello hello world"⟩] := by with_unfolding_all rfl

/-! ## Claim C4 — merger emits no empty text -/

/-- Claim C4 (counterexample): a first cue of pure whitespace seeds the
pending cue without normalization and is emitted as-is; its collapssed
text is the empty string (and the resulting segment carries empty text). -/
theorem merger_empty_text_cex :
    mergedCues [⟨0, 1, "  "⟩] = [⟨0, 1, "  "⟩] ∧ collapseText "  " = "" ∧
      parse_captions "vtt" [⟨0, 1, "  "⟩] =
        .ok [{ start_sec := 0, end_sec := 1, separator := "", text := "" }] := by
  refine ⟨by with_unfolding_all rfl, by with_unfolding_all rfl, by with_unfolding_all rfl⟩

/-! ### String-structure lemmas and the no-empty-text invariant (Claim C4) -/

theorem head?_dropWhile_false (p : Char → Bool) :
    ∀ (l : List Char) (c : Char), (l.dropWhile p).head? = some c → p c = false := by
  intro l
  induction l with
  | nil => intro c h; simp [List.dropWhile] at h
  | cons a as ih =>
    intro c h
    rw [List.dropWhile_cons] at h
    by_cases hp : p a = true
    · rw [if_pos hp] at h
      exact ih c h
    · rw [if_neg hp] at h
      simp at h
      subst h
      simpa using hp

theorem mem_dropWhile_of_mem (p : Char → Bool) :
    ∀ (l : List Char) (c : Char), c ∈ l → p c = false → c ∈ l.dropWhile p := by
  intro l
  induction l with
  | nil => intro c h; simp at h
  | cons a as ih =>
    intro c h hc
    rw [List.dropWhile_cons]
    by_cases hp : p a = true
    · rw [if_pos hp]
      rcases List.mem_cons.mp h with rfl | h'
      · rw [hp] at hc; cases hc
      · exact ih c h' hc
    · rw [if_neg hp]
      exact h

theorem mem_stripChars_of_mem (l : List Char) (c : Char) (h : c ∈ l)
    (hc : pySpace c = false) : c ∈ stripChars l := by
  unfold stripChars
  rw [List.mem_reverse]
  apply mem_dropWhile_of_mem _ _ _ _ hc
  rw [List.mem_reverse]
  exact mem_dropWhile_of_mem _ _ _ h hc

theorem stripChars_getLast_not_space (l : List Char) (c : Char)
    (h : (stripChars l).getLast? = some c) : pySpace c = false := by
  unfold stripChars at h
  rw [List.getLast?_reverse] at h
  exact head?_dropWhile_false pySpace _ c h

theorem stripChars_head_not_space (l : List Char) (c : Char)
    (h : (stripChars l).head? = some c) : pySpace c = false := by
  unfold stripChars at h
  rw [List.head?_reverse] at h
  set B := (l.dropWhile pySpace).reverse.dropWhile pySpace with hB
  have hsuf : B <:+ (l.dropWhile pySpace).reverse := List.dropWhile_suffix pySpace
  obtain ⟨pre, hpre⟩ := hsuf
  have hBne : B ≠ [] := by
    intro he
    rw [he] at h
    simp at h
  have h2 : ((l.dropWhile pySpace).reverse).getLast? = some c := by
    rw [← hpre, List.getLast?_append_of_ne_nil pre hBne]
    exact h
  rw [List.getLast?_reverse] at h2
  exact head?_dropWhile_false pySpace _ c h2

theorem stripChars_has_nonspace (l : List Char) (h : stripChars l ≠ []) :
    ∃ c ∈ stripChars l, pySpace c = false := by
  match hs : stripChars l, h with
  | c :: cs, _ =>
    refine ⟨c, by simp, ?_⟩
    have := stripChars_head_not_space l c (by rw [hs]; rfl)
    exact this

theorem splitCharAux_ne_nil (sep : Char) :
    ∀ (l acc : List Char), splitCharAux sep l acc ≠ [] := by
  intro l
  induction l with
  | nil => intro acc; simp [splitCharAux]
  | cons c cs ih =>
    intro acc
    rw [splitCharAux]
    split_ifs
    · simp
    · exact ih (c :: acc)

theorem joinCL_splitCharAux (sep : Char) :
    ∀ (l acc : List Char), joinCL sep (splitCharAux sep l acc) = acc.reverse ++ l := by
  intro l
  induction l with
  | nil => intro acc; simp [splitCharAux, joinCL]
  | cons c cs ih =>
    intro acc
    rw [splitCharAux]
    split_ifs with hc
    · subst hc
      match hs : splitCharAux c cs [], splitCharAux_ne_nil c cs [] with
      | x :: xs, _ =>
        rw [joinCL]
        have := ih []
        rw [hs] at this
        rw [this]
        simp
    · rw [ih (c :: acc)]
      simp

theorem mem_joinCL_infix (sep : Char) :
    ∀ (parts : List (List Char)) (x : List Char), x ∈ parts → x <:+: joinCL sep parts := by
  intro parts
  induction parts with
  | nil => intro x h; simp at h
  | cons y ys ih =>
    intro x h
    match ys, h with
    | [], h =>
      have hx : x = y := List.mem_singleton.mp (by simpa using h)
      subst hx
      exact List.infix_refl _
    | z :: zs, h =>
      rw [joinCL]
      rcases List.mem_cons.mp h with rfl | h'
      · exact (List.prefix_append x (sep :: joinCL sep (z :: zs))).isInfix
      · exact (ih x h').trans
          ((List.suffix_cons sep (joinCL sep (z :: zs))).trans
            (List.suffix_append y (sep :: joinCL sep (z :: zs)))).isInfix

theorem containsCL_of_infix : ∀ (a l : List Char), a <:+: l → containsCL a l = true := by
  intro a l h
  obtain ⟨s, t, rfl⟩ := h
  induction s with
  | nil =>
    simp only [List.nil_append]
    match a with
    | [] =>
      match t with
      | [] => rfl
      | c :: cs => simp [containsCL]
    | x :: xs =>
      simp only [List.cons_append, containsCL]
      rw [Bool.or_eq_true]
      left
      rw [List.isPrefixOf_iff_prefix]
      show x :: xs <+: (x :: xs) ++ t
      exact List.prefix_append (x :: xs) t
  | cons c cs ih =>
    simp only [List.cons_append, containsCL]
    rw [Bool.or_eq_true]
    right
    exact ih

theorem mem_squeezeSpaces_of_mem :
    ∀ (l : List Char) (c : Char), c ∈ l → c ≠ ' ' → c ∈ squeezeSpaces l := by
  intro l
  induction l with
  | nil => intro c h; simp at h
  | cons a as ih =>
    intro c h hc
    match as, h with
    | [], h => simpa [squeezeSpaces] using h
    | b :: bs, h =>
      rw [squeezeSpaces]
      split_ifs with hab
      · rcases List.mem_cons.mp h with rfl | h'
        · exact absurd hab.1 hc
        · exact ih c h' hc
      · rcases List.mem_cons.mp h with rfl | h'
        · simp
        · exact List.mem_cons_of_mem a (ih c h' hc)

theorem collapseText_ne_empty (s : String) (h : ∃ c ∈ s.data, pySpace c = false) :
    collapseText s ≠ "" := by
  obtain ⟨c, hc, hcs⟩ := h
  have hrepl : c ∈ (replaceNl s).data := by
    unfold replaceNl
    show c ∈ s.data.map _
    have hcn : c ≠ '\n' := by
      intro he; subst he; simp [pySpace] at hcs
    have : (fun x => if x = '\n' then ' ' else x) c = c := if_neg hcn
    rw [← this]
    exact List.mem_map_of_mem _ hc
  have hstrip : c ∈ stripChars (replaceNl s).data :=
    mem_stripChars_of_mem _ c hrepl hcs
  have hsq : c ∈ squeezeSpaces (stripChars (replaceNl s).data) := by
    apply mem_squeezeSpaces_of_mem _ c hstrip
    intro he; subst he; simp [pySpace] at hcs
  intro he
  unfold collapseText pyStrip at he
  have : squeezeSpaces (stripChars (replaceNl s).data) = [] := congrArg String.data he
  rw [this] at hsq
  simp at hsq

theorem data_mk (l : List Char) : (⟨l⟩ : String).data = l := rfl

theorem headD_mem : ∀ (l : List String) (d : String), l ≠ [] → l.headD d ∈ l := by
  intro l d h
  match l, h with
  | x :: xs, _ => simp

theorem getLastD_mem : ∀ (l : List String) (d : String), l ≠ [] → l.getLastD d ∈ l := by
  intro l
  induction l with
  | nil => intro d h; simp at h
  | cons x xs ih =>
    intro d _
    match xs with
    | [] => simp [List.getLastD]
    | y :: ys =>
      rw [List.getLastD_cons]
      exact List.mem_cons_of_mem x (ih d (by simp))

theorem pySplit_length_pos (sep : Char) (s : String) : (pySplit sep s).length ≠ 0 := by
  unfold pySplit
  rw [List.length_map]
  intro h
  exact splitCharAux_ne_nil sep s.data [] (List.length_eq_zero.mp h)

/-- A string with a single split chunk is itself that chunk. -/
theorem pySplit_length_one (sep : Char) (t : String)
    (h : (pySplit sep t).length = 1) : (pySplit sep t).headD "" = t := by
  unfold pySplit at h ⊢
  match hs : splitCharAux sep t.data [], splitCharAux_ne_nil sep t.data [] with
  | [p0], _ =>
    have hrec := joinCL_splitCharAux sep t.data []
    rw [hs] at hrec
    simp only [joinCL, List.reverse_nil, List.nil_append] at hrec
    simp only [List.map_cons, List.map_nil, List.headD_cons]
    cases t
    simp only [data_mk] at hrec ⊢
    rw [hrec]
  | p0 :: p1 :: ps, _ => rw [hs] at h; simp at h

/-- An element of the split is a substring of the original. -/
theorem pyIn_of_mem_pySplit (sep : Char) (t x : String) (hx : x ∈ pySplit sep t) :
    pyIn x t = true := by
  unfold pySplit at hx
  obtain ⟨y, hy, rfl⟩ := List.mem_map.mp hx
  unfold pyIn
  rw [data_mk]
  apply containsCL_of_infix
  have hrec := joinCL_splitCharAux sep t.data []
  simp only [List.reverse_nil, List.nil_append] at hrec
  rw [← hrec]
  exact mem_joinCL_infix sep _ y hy

/-- When the text splits into at least two lines, the join of the lines
after the first still holds a non-whitespace character, provided the last
character of the text is not whitespace. -/
theorem tail_join_has_nonspace (t : String)
    (hlast : ∀ c, t.data.getLast? = some c → pySpace c = false)
    (hlen : 2 ≤ (pySplit '\n' t).length) :
    ∃ c ∈ (joinSep '\n' (pySplit '\n' t).tail).data, pySpace c = false := by
  unfold pySplit at hlen ⊢
  rw [List.length_map] at hlen
  match hs : splitCharAux '\n' t.data [], splitCharAux_ne_nil '\n' t.data [] with
  | [p0], _ => rw [hs] at hlen; simp at hlen
  | p0 :: p1 :: ps, _ =>
    have hrec := joinCL_splitCharAux '\n' t.data []
    rw [hs] at hrec
    simp only [List.reverse_nil, List.nil_append] at hrec
    rw [joinCL] at hrec
    simp only [List.map_cons, List.tail_cons]
    have hdata : (joinSep '\n' ((⟨p1⟩ : String) :: ps.map (fun l => (⟨l⟩ : String)))).data =
        joinCL '\n' (p1 :: ps) := by
      unfold joinSep
      rw [data_mk]
      congr 1
      simp only [List.map_cons, List.map_map, data_mk]
      calc p1 :: List.map (String.data ∘ fun l => (⟨l⟩ : String)) ps
          = p1 :: List.map id ps := rfl
        _ = p1 :: ps := by rw [List.map_id]
    rw [hdata]
    by_cases hj : joinCL '\n' (p1 :: ps) = []
    · exfalso
      rw [hj] at hrec
      have : t.data.getLast? = some '\n' := by
        rw [← hrec, List.getLast?_append_of_ne_nil p0 (by simp)]
        rfl
      have := hlast '\n' this
      simp [pySpace] at this
    · have hl : t.data.getLast? = (joinCL '\n' (p1 :: ps)).getLast? := by
        rw [← hrec, List.getLast?_append_of_ne_nil p0 (by simp)]
        show (['\n'] ++ joinCL '\n' (p1 :: ps)).getLast? = _
        rw [List.getLast?_append_of_ne_nil ['\n'] hj]
      match hg : (joinCL '\n' (p1 :: ps)).getLast?, hj with
      | some c, _ =>
        refine ⟨c, List.mem_of_mem_getLast? hg, hlast c (by rw [hl, hg])⟩
      | none, _ =>
        exfalso
        exact hj (List.getLast?_eq_none_iff.mp hg)

/-- The first line of a text whose first character is not whitespace holds
a non-whitespace character. -/
theorem head_line_has_nonspace (t : String) (hne : t.data ≠ [])
    (hhead : ∀ c, t.data.head? = some c → pySpace c = false) :
    ∃ c ∈ ((pySplit '\n' t).headD "").data, pySpace c = false := by
  unfold pySplit
  match hs : splitCharAux '\n' t.data [], splitCharAux_ne_nil '\n' t.data [] with
  | [p0], _ =>
    have hrec := joinCL_splitCharAux '\n' t.data []
    rw [hs] at hrec
    simp only [joinCL, List.reverse_nil, List.nil_append] at hrec
    simp only [List.map_cons, List.map_nil, List.headD_cons, data_mk]
    rw [hrec]
    match ht : t.data, hne with
    | c :: cs, _ => exact ⟨c, by simp, hhead c (by rw [ht]; rfl)⟩
  | p0 :: p1 :: ps, _ =>
    have hrec := joinCL_splitCharAux '\n' t.data []
    rw [hs] at hrec
    simp only [List.reverse_nil, List.nil_append] at hrec
    rw [joinCL] at hrec
    simp only [List.map_cons, List.headD_cons, data_mk]
    match hp : p0 with
    | [] =>
      exfalso
      have : t.data.head? = some '\n' := by rw [← hrec]; rfl
      have := hhead '\n' this
      simp [pySpace] at this
    | c :: cs =>
      refine ⟨c, by simp, ?_⟩
      apply hhead
      rw [← hrec]
      rfl

theorem dedupeBranch_inl_text (p sub p' : Cue)
    (hbr : dedupeBranch p sub = .inl p')
    (hp : ∃ c ∈ p.text.data, pySpace c = false) :
    ∃ c ∈ p'.text.data, pySpace c = false := by
  simp only [dedupeBranch] at hbr
  split_ifs at hbr <;> cases hbr <;>
    first
      | exact hp
      | (obtain ⟨c, hc, hcs⟩ := hp
         exact ⟨c, List.mem_append.mpr (Or.inl hc), hcs⟩)

theorem dedupeBranch_inl_start (p sub p' : Cue)
    (hbr : dedupeBranch p sub = .inl p') : p'.start = p.start := by
  simp only [dedupeBranch] at hbr
  split_ifs at hbr <;> cases hbr <;> rfl

theorem dedupeBranch_inr_times (p sub c' : Cue) (sw : Bool)
    (hbr : dedupeBranch p sub = .inr (c', sw)) :
    c'.start = sub.start ∧ c'.stop = sub.stop := by
  simp only [dedupeBranch] at hbr
  split_ifs at hbr <;> cases hbr <;> exact ⟨rfl, rfl⟩

theorem dedupeBranch_inr_text (p sub c' : Cue) (sw : Bool)
    (hbr : dedupeBranch p sub = .inr (c', sw))
    (hlt : sub.start - sub.stop < 15/100) :
    ∃ c ∈ c'.text.data, pySpace c = false := by
  simp only [dedupeBranch] at hbr
  split_ifs at hbr with h1 h2 h3 h4 h5 h6 <;> cases hbr
  case _ =>
    -- singleword rewrite: the first line of the stripped text survives
    have ht_ne : (pyStrip sub.text).data ≠ [] := by
      intro he
      exact h1 (by show (pyStrip sub.text).data.length = 0; rw [he]; rfl)
    obtain ⟨c, hc, hcs⟩ := head_line_has_nonspace (pyStrip sub.text) ht_ne
      (fun c h => stripChars_head_not_space sub.text.data c h)
    exact ⟨c, List.mem_append.mpr (Or.inl (List.mem_append.mpr (Or.inl hc))), hcs⟩
  case _ =>
    -- drop-first-line rewrite, single-line pending
    have ht_ne : (pyStrip sub.text).data ≠ [] := by
      intro he
      exact h1 (by show (pyStrip sub.text).data.length = 0; rw [he]; rfl)
    have hlen2 : 2 ≤ (pySplit '\n' (pyStrip sub.text)).length := by
      have h0 := pySplit_length_pos '\n' (pyStrip sub.text)
      rcases Nat.lt_or_ge (pySplit '\n' (pyStrip sub.text)).length 2 with hl | hl
      · exfalso
        have h1' : (pySplit '\n' (pyStrip sub.text)).length = 1 := by omega
        have heq := pySplit_length_one '\n' (pyStrip sub.text) h1'
        rw [heq] at h3
        have hmem : pyStrip sub.text ∈ pySplit '\n' p.text := by
          rw [h3]
          apply getLastD_mem
          intro he
          exact pySplit_length_pos '\n' p.text (by rw [he]; rfl)
        exact h2 ⟨hlt, pyIn_of_mem_pySplit '\n' p.text _ hmem⟩
      · exact hl
    exact tail_join_has_nonspace (pyStrip sub.text)
      (fun c h => stripChars_getLast_not_space sub.text.data c h) hlen2
  case _ =>
    -- drop-first-line rewrite, multi-line pending
    have ht_ne : (pyStrip sub.text).data ≠ [] := by
      intro he
      exact h1 (by show (pyStrip sub.text).data.length = 0; rw [he]; rfl)
    have hlen2 : 2 ≤ (pySplit '\n' (pyStrip sub.text)).length := by
      have h0 := pySplit_length_pos '\n' (pyStrip sub.text)
      rcases Nat.lt_or_ge (pySplit '\n' (pyStrip sub.text)).length 2 with hl | hl
      · exfalso
        have h1' : (pySplit '\n' (pyStrip sub.text)).length = 1 := by omega
        have heq := pySplit_length_one '\n' (pyStrip sub.text) h1'
        rw [heq] at h3
        have hmem : pyStrip sub.text ∈ pySplit '\n' p.text := by
          rw [h3]
          apply getLastD_mem
          intro he
          exact pySplit_length_pos '\n' p.text (by rw [he]; rfl)
        exact h2 ⟨hlt, pyIn_of_mem_pySplit '\n' p.text _ hmem⟩
      · exact hl
    exact tail_join_has_nonspace (pyStrip sub.text)
      (fun c h => stripChars_getLast_not_space sub.text.data c h) hlen2
  case _ =>
    -- no rewrite: the stripped text itself
    have ht_ne : (pyStrip sub.text).data ≠ [] := by
      intro he
      exact h1 (by show (pyStrip sub.text).data.length = 0; rw [he]; rfl)
    exact stripChars_has_nonspace sub.text.data ht_ne

theorem mem_of_mem_stripChars (l : List Char) (c : Char) (h : c ∈ stripChars l) : c ∈ l := by
  unfold stripChars at h
  rw [List.mem_reverse] at h
  have h2 : c ∈ (l.dropWhile pySpace).reverse :=
    (List.dropWhile_suffix pySpace).sublist.subset h
  rw [List.mem_reverse] at h2
  exact (List.dropWhile_suffix pySpace).sublist.subset h2

theorem dedupeGo_all_nonspace :
    ∀ (rest : List Cue) (pending : Cue),
      (∃ c ∈ pending.text.data, pySpace c = false) →
      (∀ c ∈ rest, c.start < c.stop) →
      ∀ x ∈ dedupeGo pending rest, ∃ ch ∈ x.text.data, pySpace ch = false := by
  intro rest
  induction rest with
  | nil =>
    intro pending hp _ x hx
    rw [dedupeGo] at hx
    rw [List.mem_singleton] at hx
    subst hx
    exact hp
  | cons sub rest ih =>
    intro pending hp hwf x hx
    rw [dedupeGo] at hx
    cases hbr : dedupeBranch pending sub with
    | inl p' =>
      rw [hbr] at hx
      exact ih p' (dedupeBranch_inl_text pending sub p' hbr hp)
        (fun c hc => hwf c (List.mem_cons_of_mem sub hc)) x hx
    | inr pr =>
      obtain ⟨c', sw⟩ := pr
      rw [hbr] at hx
      have hlt : sub.start - sub.stop < 15/100 := by
        have := hwf sub (by simp)
        have h15 : (0:ℚ) < 15/100 := by norm_num
        linarith
      have hc'nw := dedupeBranch_inr_text pending sub c' sw hbr hlt
      replace hx : x ∈ (if sw then
          dedupeGo (if c'.start ≥ c'.stop then
            { c' with start := c'.stop, stop := c'.start } else c') rest
        else
          (if c'.start ≤ pending.stop then
            { pending with stop := max (c'.start - 1/1000) 0 } else pending) ::
            dedupeGo (if c'.start ≥ c'.stop then
              { c' with start := c'.stop, stop := c'.start } else c') rest) := hx
      have hs3text : (if c'.start ≥ c'.stop then
          { c' with start := c'.stop, stop := c'.start } else c').text = c'.text := by
        split_ifs <;> rfl
      have hs3nw : ∃ ch ∈ (if c'.start ≥ c'.stop then
          { c' with start := c'.stop, stop := c'.start } else c').text.data,
          pySpace ch = false := by
        rw [hs3text]; exact hc'nw
      have hwf' : ∀ c ∈ rest, c.start < c.stop :=
        fun c hc => hwf c (List.mem_cons_of_mem sub hc)
      cases sw with
      | true =>
        rw [if_pos rfl] at hx
        exact ih _ hs3nw hwf' x hx
      | false =>
        rw [if_neg (by simp)] at hx
        rcases List.mem_cons.mp hx with rfl | hx'
        · have hp2text : (if c'.start ≤ pending.stop then
              { pending with stop := max (c'.start - 1/1000) 0 } else pending).text =
              pending.text := by
            split_ifs <;> rfl
          rw [hp2text]
          exact hp
        · exact ih _ hs3nw hwf' x hx'

/-- Claim C4 (amended): provided the first cue's stripped text is
non-empty and every later cue is well-formed (`start < end`, so the
short-duplicate guard catches every single-line rolling duplicate before
the line-continuation rewrite can empty it), no cue emitted by the merger
has text collapsing to the empty string. -/
theorem merger_no_empty_text (first : Cue) (rest : List Cue)
    (hfirst : pyStrip first.text ≠ "")
    (hwf : ∀ c ∈ rest, c.start < c.stop) :
    ∀ x ∈ mergedCues (first :: rest), collapseText x.text ≠ "" := by
  intro x hx
  have hm : mergedCues (first :: rest) = dedupeGo first rest := by
    unfold mergedCues dedupe_yt_captions
    rw [List.filterMap_map]
    simp
  rw [hm] at hx
  apply collapseText_ne_empty
  have hfnw : ∃ c ∈ first.text.data, pySpace c = false := by
    have hne : stripChars first.text.data ≠ [] := by
      intro he
      apply hfirst
      show (⟨stripChars first.text.data⟩ : String) = ""
      rw [he]
    obtain ⟨c, hc, hcs⟩ := stripChars_has_nonspace first.text.data hne
    exact ⟨c, mem_of_mem_stripChars first.text.data c hc, hcs⟩
  exact dedupeGo_all_nonspace rest first hfnw hwf x hx

/-- Claim C4 (witness for the amended theorem). -/
theorem merger_no_empty_text_witness :
    pyStrip (Cue.mk 0 1 "hello").text ≠ "" ∧
      (∀ c ∈ [Cue.mk 2 3 "some more words here"], c.start < c.stop) ∧
      (∀ x ∈ mergedCues [Cue.mk 0 1 "hello", Cue.mk 2 3 "some more words here"],
        collapseText x.text ≠ "") :=
  ⟨by decide, by with_unfolding_all decide,
    merger_no_empty_text (Cue.mk 0 1 "hello") [Cue.mk 2 3 "some more words here"]
      (by decide) (by with_unfolding_all decide)⟩

theorem mergedCues_cons (first : Cue) (rest : List Cue) :
    mergedCues (first :: rest) = dedupeGo first rest := by
  unfold mergedCues dedupe_yt_captions
  rw [List.filterMap_map]
  simp

theorem dedupeGo_start_le :
    ∀ (rest : List Cue) (pending : Cue),
      (∀ c ∈ rest, 0 ≤ c.start ∧ c.start < c.stop) →
      (∀ c ∈ rest, pending.start ≤ c.start) →
      List.Pairwise (fun a b : Cue => a.start ≤ b.start) rest →
      ∀ x ∈ dedupeGo pending rest, pending.start ≤ x.start := by
  intro rest
  induction rest with
  | nil =>
    intro pending _ _ _ x hx
    rw [dedupeGo, List.mem_singleton] at hx
    subst hx
    exact le_refl _
  | cons sub rest ih =>
    intro pending hwf hmono hsorted x hx
    rw [dedupeGo] at hx
    cases hbr : dedupeBranch pending sub with
    | inl p' =>
      rw [hbr] at hx
      have hst := dedupeBranch_inl_start pending sub p' hbr
      have := ih p' (fun c hc => hwf c (List.mem_cons_of_mem sub hc))
        (fun c hc => hst ▸ hmono c (List.mem_cons_of_mem sub hc))
        (List.Pairwise.of_cons hsorted) x hx
      rw [hst] at this
      exact this
    | inr pr =>
      obtain ⟨c', sw⟩ := pr
      rw [hbr] at hx
      obtain ⟨hcs, hce⟩ := dedupeBranch_inr_times pending sub c' sw hbr
      have hwfsub := hwf sub (by simp)
      have hnoswap : ¬ c'.start ≥ c'.stop := by
        rw [hcs, hce]
        exact not_le.mpr hwfsub.2
      replace hx : x ∈ (if sw then
          dedupeGo (if c'.start ≥ c'.stop then
            { c' with start := c'.stop, stop := c'.start } else c') rest
        else
          (if c'.start ≤ pending.stop then
            { pending with stop := max (c'.start - 1/1000) 0 } else pending) ::
            dedupeGo (if c'.start ≥ c'.stop then
              { c' with start := c'.stop, stop := c'.start } else c') rest) := hx
      rw [if_neg hnoswap] at hx
      have hrec : ∀ y ∈ dedupeGo c' rest, pending.start ≤ y.start := by
        intro y hy
        have := ih c' (fun c hc => hwf c (List.mem_cons_of_mem sub hc))
          (fun c hc => by
            rw [hcs]
            exact (List.rel_of_pairwise_cons hsorted hc))
          (List.Pairwise.of_cons hsorted) y hy
        calc pending.start ≤ sub.start := hmono sub (by simp)
          _ = c'.start := hcs.symm
          _ ≤ y.start := this
      cases sw with
      | true =>
        rw [if_pos rfl] at hx
        exact hrec x hx
      | false =>
        rw [if_neg (by simp)] at hx
        rcases List.mem_cons.mp hx with rfl | hx'
        · have : (if c'.start ≤ pending.stop then
              { pending with stop := max (c'.start - 1/1000) 0 } else pending).start =
              pending.start := by
            split_ifs <;> rfl
          rw [this]
        · exact hrec x hx'

theorem dedupeGo_chain :
    ∀ (rest : List Cue) (pending : Cue),
      (∀ c ∈ rest, 0 ≤ c.start ∧ c.start < c.stop) →
      (∀ c ∈ rest, pending.start ≤ c.start) →
      List.Pairwise (fun a b : Cue => a.start ≤ b.start) rest →
      List.Chain' (fun a b : Cue => a.stop ≤ b.start) (dedupeGo pending rest) := by
  intro rest
  induction rest with
  | nil =>
    intro pending _ _ _
    rw [dedupeGo]
    exact List.chain'_singleton pending
  | cons sub rest ih =>
    intro pending hwf hmono hsorted
    rw [dedupeGo]
    cases hbr : dedupeBranch pending sub with
    | inl p' =>
      have hst := dedupeBranch_inl_start pending sub p' hbr
      exact ih p' (fun c hc => hwf c (List.mem_cons_of_mem sub hc))
        (fun c hc => hst ▸ hmono c (List.mem_cons_of_mem sub hc))
        (List.Pairwise.of_cons hsorted)
    | inr pr =>
      obtain ⟨c', sw⟩ := pr
      obtain ⟨hcs, hce⟩ := dedupeBranch_inr_times pending sub c' sw hbr
      have hwfsub := hwf sub (by simp)
      have hnoswap : ¬ c'.start ≥ c'.stop := by
        rw [hcs, hce]
        exact not_le.mpr hwfsub.2
      have hwf' : ∀ c ∈ rest, 0 ≤ c.start ∧ c.start < c.stop :=
        fun c hc => hwf c (List.mem_cons_of_mem sub hc)
      have hmono' : ∀ c ∈ rest, c'.start ≤ c.start := by
        intro c hc
        rw [hcs]
        exact List.rel_of_pairwise_cons hsorted hc
      have hchain' := ih c' hwf' hmono' (List.Pairwise.of_cons hsorted)
      show List.Chain' _ (if sw then
          dedupeGo (if c'.start ≥ c'.stop then
            { c' with start := c'.stop, stop := c'.start } else c') rest
        else
          (if c'.start ≤ pending.stop then
            { pending with stop := max (c'.start - 1/1000) 0 } else pending) ::
            dedupeGo (if c'.start ≥ c'.stop then
              { c' with start := c'.stop, stop := c'.start } else c') rest)
      rw [if_neg hnoswap]
      cases sw with
      | true =>
        rw [if_pos rfl]
        exact hchain'
      | false =>
        rw [if_neg (by simp)]
        rw [List.chain'_cons']
        refine ⟨?_, hchain'⟩
        intro y hy
        have hymem : y ∈ dedupeGo c' rest := List.mem_of_mem_head? hy
        have hystart : c'.start ≤ y.start :=
          dedupeGo_start_le rest c' hwf' hmono' (List.Pairwise.of_cons hsorted) y hymem
        have hp2 : (if c'.start ≤ pending.stop then
            { pending with stop := max (c'.start - 1/1000) 0 } else pending).stop ≤ c'.start := by
          split_ifs with hov
          · show max (c'.start - 1/1000) 0 ≤ c'.start
            apply max_le
            · linarith
            · rw [hcs]
              exact hwfsub.1
          · exact le_of_lt (not_le.mp hov)
        exact le_trans hp2 hystart

/-- Claim C2 (amended): for input cue sequences with non-decreasing start
times in which every cue is well-formed (`0 <= start < end`, so the order
correction never fires), adjacent output cues of the merger never
overlap: `end(a) <= start(b)`.  For a malformed cue the claim fails
(counterexample above): the overlap correction uses the pre-swap start,
so an endpoint swap can move a cue's start before the previous cue's
corrected end. -/
theorem merger_non_overlap (subs : List Cue)
    (hwf : ∀ c ∈ subs, 0 ≤ c.start ∧ c.start < c.stop)
    (hsorted : List.Pairwise (fun a b : Cue => a.start ≤ b.start) subs) :
    List.Chain' (fun a b : Cue => a.stop ≤ b.start) (mergedCues subs) := by
  match subs with
  | [] => exact List.chain'_nil
  | first :: rest =>
    rw [mergedCues_cons]
    exact dedupeGo_chain rest first
      (fun c hc => hwf c (List.mem_cons_of_mem first hc))
      (fun c hc => List.rel_of_pairwise_cons hsorted hc)
      (List.Pairwise.of_cons hsorted)

/-- Claim C2 (witness for the amended theorem). -/
theorem merger_non_overlap_witness :
    (∀ c ∈ [Cue.mk 0 1 "hello there friend", Cue.mk 2 3 "more words again here"],
        0 ≤ c.start ∧ c.start < c.stop) ∧
      List.Pairwise (fun a b : Cue => a.start ≤ b.start)
        [Cue.mk 0 1 "hello there friend", Cue.mk 2 3 "more words again here"] ∧
      List.Chain' (fun a b : Cue => a.stop ≤ b.start)
        (mergedCues [Cue.mk 0 1 "hello there friend", Cue.mk 2 3 "more words again here"]) :=
  ⟨by with_unfolding_all decide, by with_unfolding_all decide,
    merger_non_overlap [Cue.mk 0 1 "hello there friend", Cue.mk 2 3 "more words again here"]
      (by with_unfolding_all decide) (by with_unfolding_all decide)⟩

/-! ## Claim C5 — error distinction in the track selector

Both failure paths of `get_captions_by_priority` return Python `None`
(lines 107 and 118): a matched language with no usable format and no
matched language at all are indistinguishable to the caller. -/

/-- A catalog whose only English track list contains one track without a
`'name'` key: the language matches but the format loop skips the track. -/
def infoNoUsable : VideoInfo := ⟨[("en", [⟨none, none, some "vtt"⟩])], []⟩

/-- A catalog with no caption track at all. -/
def infoNoTrack : VideoInfo := ⟨[], []⟩

/-- Claim C5 (counterexample): a catalog where the language matched but no
track passes the format/usability filter produces exactly the same
selector result as a catalog with no track at all — `none` both times —
so the two outcomes are not distinguishable by the caller. -/
theorem selector_outcomes_indistinguishable_cex :
    caption_track infoNoUsable = some [⟨none, none, some "vtt"⟩] ∧
      caption_track infoNoTrack = none ∧
      get_captions_by_priority infoNoUsable = get_captions_by_priority infoNoTrack := by
  refine ⟨by decide, by decide, by decide⟩

/-- Claim C5 (amended): when a language's track list is found (non-empty)
but no track in it passes the format priority and usability filter, the
selector returns `none` — the very value it returns when no language
matches at all, so the caller cannot distinguish the two outcomes. -/
theorem selector_no_usable_format_is_none (info info2 : VideoInfo)
    (l : List CaptionTrack) (h1 : caption_track info = some l) (h2 : l ≠ [])
    (h3 : selectFormat l = none)
    (h4 : truthyTrack (caption_track info2) = false) :
    get_captions_by_priority info = none ∧ get_captions_by_priority info2 = none := by
  constructor
  · unfold get_captions_by_priority
    rw [h1]
    simp [List.isEmpty_iff, h2, h3]
  · unfold get_captions_by_priority
    cases hct : caption_track info2 with
    | none => rfl
    | some l2 =>
      rw [hct] at h4
      unfold truthyTrack at h4
      simp only [Bool.not_eq_eq_eq_not, Bool.not_false] at h4
      simp [h4]

/-- Claim C5 (witness for the amended theorem). -/
theorem selector_no_usable_format_is_none_witness :
    caption_track infoNoUsable = some [⟨none, none, some "vtt"⟩] ∧
      ([⟨none, none, some "vtt"⟩] : List CaptionTrack) ≠ [] ∧
      selectFormat [⟨none, none, some "vtt"⟩] = none ∧
      truthyTrack (caption_track infoNoTrack) = false ∧
      (get_captions_by_priority infoNoUsable = none ∧
        get_captions_by_priority infoNoTrack = none) :=
  ⟨by decide, by decide, by decide, by decide,
    selector_no_usable_format_is_none infoNoUsable infoNoTrack
      [⟨none, none, some "vtt"⟩] (by decide) (by decide) (by decide) (by decide)⟩

/-! ## Claim C6 — empty input handling

On an empty cue sequence `dedupe_yt_captions` still executes its final
`yield previous_subtitle` with `previous_subtitle = None`; the segment
loop of `parse_captions` then dereferences `None.text` and raises
`AttributeError` instead of producing an empty segment list. -/

/-- Claim C6 (code_bug evaluation): the merger on zero cues yields the
single element `None`, and the segment builder then crashes
(`AttributeError` on `None.text`) rather than returning an empty segment
sequence. -/
theorem parse_captions_crashes_on_empty :
    dedupe_yt_captions [] = [none] ∧
      parse_captions "vtt" [] = .error "AttributeError" := by
  refine ⟨by with_unfolding_all rfl, by with_unfolding_all rfl⟩

/-! ## Claim C8 — merger idempotence -/

/-- Claim C8 (counterexample): the merger's own output can contain a cue
with at most two tokens (here `"f g"`, the rewrite of a rolling caption);
a second run folds it into its predecessor via the short-annotation rule,
dropping a cue and rewriting text and timing — the merger is not
idempotent. -/
theorem merger_not_idempotent_cex :
    mergedCues [⟨0, 1, "a b c\nd e"⟩, ⟨2, 3, "d e\nf g"⟩] =
        [⟨0, 1, "a b c\nd e"⟩, ⟨2, 3, "f g"⟩] ∧
      mergedCues [⟨0, 1, "a b c\nd e"⟩, ⟨2, 3, "f g"⟩] =
        [⟨0, 3, "a b c\nd e f g"⟩] := by
  refine ⟨by with_unfolding_all rfl, by with_unfolding_all rfl⟩

theorem dedupeBranch_clean (p sub : Cue)
    (hstrip : pyStrip sub.text = sub.text)
    (htok : 2 < (pySplit ' ' sub.text).length)
    (hin : pyIn sub.text p.text = false)
    (hline : (pySplit '\n' sub.text).headD "" ≠ (pySplit '\n' p.text).getLastD "") :
    dedupeBranch p sub = .inr (sub, false) := by
  have hsub1 : ({ sub with text := pyStrip sub.text } : Cue) = sub := by
    rw [hstrip]
  have hne : ¬ (pyStrip sub.text).length = 0 := by
    rw [hstrip]
    intro he
    have hdata : sub.text.data = [] := by
      have h0 : sub.text.data.length = 0 := he
      exact List.length_eq_zero.mp h0
    have h1 : (pySplit ' ' sub.text).length = 1 := by
      unfold pySplit
      rw [hdata]
      rfl
    omega
  simp only [dedupeBranch]
  rw [if_neg hne, hsub1, if_neg (fun hand => absurd hand.2 (by rw [hstrip, hin]; simp)),
    hstrip, if_neg hline, if_neg (by omega : ¬ (pySplit ' ' sub.text).length ≤ 2)]

theorem dedupeGo_id :
    ∀ (rest : List Cue) (pending : Cue),
      List.Chain' (fun a b : Cue => a.stop < b.start ∧ pyIn b.text a.text = false ∧
        (pySplit '\n' b.text).headD "" ≠ (pySplit '\n' a.text).getLastD "")
        (pending :: rest) →
      (∀ c ∈ rest, pyStrip c.text = c.text ∧ 2 < (pySplit ' ' c.text).length ∧
        c.start < c.stop) →
      dedupeGo pending rest = pending :: rest := by
  intro rest
  induction rest with
  | nil => intro pending _ _; rfl
  | cons sub rest ih =>
    intro pending hchain hgood
    obtain ⟨hR, hchain'⟩ := List.chain'_cons.mp hchain
    obtain ⟨hstrip, htok, hwf⟩ := hgood sub (by simp)
    rw [dedupeGo, dedupeBranch_clean pending sub hstrip htok hR.2.1 hR.2.2]
    show ((if sub.start ≤ pending.stop then
        { pending with stop := max (sub.start - 1/1000) 0 } else pending) ::
      dedupeGo (if sub.start ≥ sub.stop then
        { sub with start := sub.stop, stop := sub.start } else sub) rest) =
        pending :: sub :: rest
    rw [if_neg (not_le.mpr hR.1), if_neg (not_le.mpr hwf),
      ih sub hchain' (fun c hc => hgood c (List.mem_cons_of_mem sub hc))]

/-- Claim C8 (amended): re-running the merger changes nothing when its
input already satisfies the conditions under which no merge rule fires:
adjacent cues are strictly separated (`end(a) < start(b)`), no cue's text
is a substring of its predecessor's text or begins with its predecessor's
last line, and every cue after the first has already-stripped text with
more than two space-separated tokens and well-formed times.  The merger's
own output need not satisfy these conditions — the counterexample above
shows a first-pass output on which a second pass drops and retimes a cue
— so idempotence fails in general. -/
theorem merger_identity_on_clean (subs : List Cue)
    (hchain : List.Chain' (fun a b : Cue => a.stop < b.start ∧ pyIn b.text a.text = false ∧
      (pySplit '\n' b.text).headD "" ≠ (pySplit '\n' a.text).getLastD "") subs)
    (hgood : ∀ c ∈ subs.tail, pyStrip c.text = c.text ∧ 2 < (pySplit ' ' c.text).length ∧
      c.start < c.stop) :
    mergedCues subs = subs := by
  match subs with
  | [] => rfl
  | first :: rest =>
    rw [mergedCues_cons]
    exact dedupeGo_id rest first hchain hgood

/-- Claim C8 (witness for the amended theorem). -/
theorem merger_identity_on_clean_witness :
    List.Chain' (fun a b : Cue => a.stop < b.start ∧ pyIn b.text a.text = false ∧
        (pySplit '\n' b.text).headD "" ≠ (pySplit '\n' a.text).getLastD "")
      [Cue.mk 0 1 "alpha beta gamma", Cue.mk 2 3 "delta epsilon zeta"] ∧
      (∀ c ∈ [Cue.mk 0 1 "alpha beta gamma", Cue.mk 2 3 "delta epsilon zeta"].tail,
        pyStrip c.text = c.text ∧ 2 < (pySplit ' ' c.text).length ∧ c.start < c.stop) ∧
      mergedCues [Cue.mk 0 1 "alpha beta gamma", Cue.mk 2 3 "delta epsilon zeta"] =
        [Cue.mk 0 1 "alpha beta gamma", Cue.mk 2 3 "delta epsilon zeta"] :=
  have hchain : List.Chain' (fun a b : Cue => a.stop < b.start ∧ pyIn b.text a.text = false ∧
      (pySplit '\n' b.text).headD "" ≠ (pySplit '\n' a.text).getLastD "")
      [Cue.mk 0 1 "alpha beta gamma", Cue.mk 2 3 "delta epsilon zeta"] :=
    List.chain'_cons.mpr
      ⟨⟨by with_unfolding_all decide, by decide, by decide⟩, List.chain'_singleton _⟩
  have hgood : ∀ c ∈ [Cue.mk 0 1 "alpha beta gamma", Cue.mk 2 3 "delta epsilon zeta"].tail,
      pyStrip c.text = c.text ∧ 2 < (pySplit ' ' c.text).length ∧ c.start < c.stop := by
    with_unfolding_all decide
  ⟨hchain, hgood,
    merger_identity_on_clean
      [Cue.mk 0 1 "alpha beta gamma", Cue.mk 2 3 "delta epsilon zeta"] hchain hgood⟩

/-! ## Claim C9 — downstream millisecond projection

The source derives `offset` and `duration` with the truncating `int()`
on IEEE-754 doubles, not with `round()`.  The exact value of the double
nearest 1.001 — what the float pipeline holds as `start_sec` after
parsing the whole-millisecond timestamp `"00:00:01.001"` — is
`2254051613498933 / 2251799813685248` (denominator `2^51`), and already
its exact product with 1000 is `1000.99999999999989…`, strictly below
1001, so `int()` yields 1000 where the claim demands
`round(start_sec*1000) = 1001`.  Likewise a cue from 1.000 s to 1.001 s
has `(end_sec - start_sec)*1000 = 0.99999999999989…`, so the derived
duration is 0 instead of `round(...) = 1`.  (Python confirms:
`int(1.001*1000) == 1000` and `int((1.001-1.0)*1000) == 0`.)  The
derivation is therefore truncated, not rounded, and loses a millisecond
on such inputs — contradicting the claim and the spec's "lossless
(rounded, not truncated)" guarantee. -/

/-- Claim C9 (code_bug evaluation): evaluating `convert_caption_data` at
the exact rational values the source's double pipeline carries for the
whole-millisecond timestamps 1.001 s and 1.000 s shows the derived
offset is 1000 while `round(start_sec*1000) = 1001`, and the derived
duration of a 1 ms cue is 0 while `round((end_sec-start_sec)*1000) = 1`:
the truncating `int()` disagrees with the claimed rounding. -/
theorem convert_caption_data_truncates_on_double :
    (convert_caption_data
        ⟨2254051613498933/2251799813685248, 2254051613498933/2251799813685248 + 1,
          " ", "x"⟩).offset = 1000 ∧
      round (((2254051613498933 : ℚ)/2251799813685248) * 1000) = 1001 ∧
      (convert_caption_data
        ⟨1, 2254051613498933/2251799813685248, " ", "x"⟩).duration = 0 ∧
      round ((((2254051613498933 : ℚ)/2251799813685248) - 1) * 1000) = 1 := by
  refine ⟨?_, ?_, ?_, ?_⟩
  · show pyInt (((2254051613498933 : ℚ)/2251799813685248) * 1000) = 1000
    with_unfolding_all decide
  · rw [round_eq]
    with_unfolding_all decide
  · show pyInt ((((2254051613498933 : ℚ)/2251799813685248) - 1) * 1000) = 0
    with_unfolding_all decide
  · rw [round_eq]
    with_unfolding_all decide

/-! ## Claim C10 — `parse_captions` only decodes VTT -/

/-- A catalog whose only available track is a usable `srt` track. -/
def infoSrtOnly : VideoInfo := ⟨[("en", [⟨some "English", none, some "srt"⟩])], []⟩

/-- Claim C10: for every format other than `'vtt'`, `parse_captions`
raises `ValueError` no matter what the content is (it is rejected before
any cue is examined); yet the selector's format priority list contains
`'srt'` and `'ttml'` and can return such a track (e.g. on
`infoSrtOnly`), which this parser then cannot decode. -/
theorem parse_captions_rejects_non_vtt (ext : String) (cues : List Cue)
    (h : ext ≠ "vtt") :
    parse_captions ext cues = .error ("Unsupported caption format: " ++ ext) ∧
      "srt" ∈ format_priorities ∧ "ttml" ∈ format_priorities ∧
      get_captions_by_priority infoSrtOnly = some ⟨some "English", none, some "srt"⟩ := by
  refine ⟨?_, by decide, by decide, by decide⟩
  unfold parse_captions
  rw [if_pos h]

/-- Claim C10 (witness). -/
theorem parse_captions_rejects_non_vtt_witness :
    ("srt" : String) ≠ "vtt" ∧
      (parse_captions "srt" [] = .error ("Unsupported caption format: " ++ "srt") ∧
        "srt" ∈ format_priorities ∧ "ttml" ∈ format_priorities ∧
        get_captions_by_priority infoSrtOnly = some ⟨some "English", none, some "srt"⟩) :=
  ⟨by decide, parse_captions_rejects_non_vtt "srt" [] (by decide)⟩

end YT
